import Mathlib

/-!
# Go-Helper, package `fp`: a shallow embedding and its verified properties

The embedding follows the Go sources under `src/fp`.

* A Go slice `[]T` is the list of its elements (`List T`); `len`, `range`,
  indexing and `append` only see that list, so a nil slice and an empty slice
  are both `[]`.
* A Go `int` is an `Int`. The only arithmetic on it in this package is a
  counter bounded by the length of a slice, so no overflow is involved.
* A loop `for i := range slice` is a left fold over `List.finRange slice.length`,
  reading `slice[i]` at every index.
* A Go `map[K]V` is a `GoMap K V`: an association list with one entry per key.
  The order in which `range` visits a map is unspecified in Go: it is an arbitrary
  order of the entries, chosen by a function `pick` that the theorems quantify over.
* `reflect.DeepEqual` belongs to Go's library: it is a parameter `deepEqual` of
  `Contains`, of which nothing is assumed (it is not reflexive on func values).
* An index expression is in range by construction (`slice[i]` with its bound); where
  a claim is about that, the expression is also given with Go's run-time check.
* The zero value of a type `T` is `default` of `Inhabited T`.
* A nilable `error` is an `Option E`; `nil` is `none`.
-/

namespace fp

/-! ## Definitions -/

/-! ### slice_options.go -/

/-- The struct `sliceOptions`; the nil `*int` is `none`. -/
structure sliceOptions where
  limit : Option Int
deriving DecidableEq, Repr

/-- The zero value of `sliceOptions`, from which a configuration is built: no limit. -/
def sliceOptions.zero : sliceOptions := { limit := none }

/-- Method `apply` of `limitOption` (an `int`): a non-positive limit returns early,
any other is stored. -/
def limitOption.apply (limitOption : Int) (options : sliceOptions) : sliceOptions :=
  let limit := limitOption
  if limit ≤ 0 then options else { options with limit := some limit }

/-- The interface `SliceTransformOption`; `limitOption` is its only implementation. -/
inductive SliceTransformOption where
  | limitOption (limit : Int)
deriving DecidableEq, Repr

/-- Dynamic dispatch of the interface method `apply`. -/
def SliceTransformOption.apply : SliceTransformOption → sliceOptions → sliceOptions
  | .limitOption n, options => limitOption.apply n options

/-- `WithLimit(limit)` converts its argument to a `limitOption`. -/
def WithLimit (limit : Int) : SliceTransformOption := .limitOption limit

/-! ### Go maps -/

/-- A Go `map[K]V`: the list of its entries, at most one per key. -/
structure GoMap (K V : Type) where
  entries : List (K × V)
deriving DecidableEq, Repr

/-- Reading a key in a list of entries. -/
def assocGet {K V : Type} [DecidableEq K] : List (K × V) → K → Option V
  | [], _ => none
  | (a, b) :: rest, k => if a = k then some b else assocGet rest k

/-- Writing a key in a list of entries: the entry of the key is replaced when there is
one, and added otherwise. -/
def assocSet {K V : Type} [DecidableEq K] : List (K × V) → K → V → List (K × V)
  | [], k, v => [(k, v)]
  | (a, b) :: rest, k, v => if a = k then (k, v) :: rest else (a, b) :: assocSet rest k v

/-- The empty map, `make(map[K]V)` or a map literal without entries. -/
def GoMap.empty {K V : Type} : GoMap K V := ⟨[]⟩

/-- The two-valued read `v, exists := m[k]`: `none` when the key is absent. -/
def GoMap.lookup {K V : Type} [DecidableEq K] (m : GoMap K V) (k : K) : Option V :=
  assocGet m.entries k

/-- The assignment `m[k] = v`. -/
def GoMap.insert {K V : Type} [DecidableEq K] (m : GoMap K V) (k : K) (v : V) : GoMap K V :=
  ⟨assocSet m.entries k v⟩

/-- `ZeroValueOf[A]()`: the zero value of the type. -/
def ZeroValueOf (A : Type) [Inhabited A] : A := default

/-- `IsZeroValue(v)`: whether `v` is the zero value of its type (`reflect`'s `IsZero`;
an invalid `reflect.Value`, which only a nil interface gives, is the zero value too). -/
def IsZeroValue {A : Type} [Inhabited A] [DecidableEq A] (v : A) : Bool :=
  decide (v = ZeroValueOf A)

/-! ### slices.go -/

/-- `IsEmptySlice`: `len(slice) <= 0`. -/
def IsEmptySlice {T : Type} (slice : List T) : Bool := decide (slice.length ≤ 0)

/-- `Head`: the first element, or the zero value of `T` for an empty slice. -/
def Head {T : Type} [Inhabited T] (slice : List T) : T :=
  if h : 0 < slice.length then slice[0] else ZeroValueOf T

/-- `Map`, for a callback that also updates variables it has captured: the captured
variables are the state `σ`, threaded through the calls in index order. -/
def MapSt {T R σ : Type} (slice : List T) (fn : T → σ → R × σ) (st : σ) : List R × σ :=
  (List.finRange slice.length).foldl
    (fun acc i => let r := fn slice[i] acc.2; (acc.1 ++ [r.1], r.2)) ([], st)

/-- `Map`: the slice of the results of `fn` on each element. -/
def Map {T R : Type} (slice : List T) (fn : T → R) : List R :=
  (MapSt slice (fun x (u : Unit) => (fn x, u)) ()).1

/-- `Find`: appends every element that matches the predicate to an initially nil slice. -/
def Find {T : Type} (slice : List T) (predicate : T → Bool) : List T :=
  (List.finRange slice.length).foldl
    (fun s i => if predicate slice[i] then s ++ [slice[i]] else s) []

/-- `FindFirst`: the head of `Find`, and whether that head is not the zero value. -/
def FindFirst {T : Type} [Inhabited T] [DecidableEq T] (slice : List T)
    (predicate : T → Bool) : T × Bool :=
  let head := Head (Find slice predicate)
  (head, !IsZeroValue head)

/-- `Filter`: appends every element that matches the predicate to an initially empty
slice (of capacity `len(slice)`). -/
def Filter {T : Type} (slice : List T) (predicate : T → Bool) : List T :=
  (List.finRange slice.length).foldl
    (fun filtered i => if predicate slice[i] then filtered ++ [slice[i]] else filtered) []

/-- `Replace`: `Map` with a callback that counts, in the captured `cnt`, the elements
it replaces by `v`. -/
def Replace {T : Type} (slice : List T) (v : T) (predicate : T → Bool) : List T × Int :=
  MapSt slice (fun x cnt => if predicate x then (v, cnt + 1) else (x, cnt)) 0

/-- `Distinct`: keeps an element when the gob encoding of it, used as a string key,
has not been seen before. The encoder of `encoding/gob` is the parameter `gobEncode`:
the bytes it leaves in the buffer for a value (the error it may return is dropped). -/
def Distinct {T : Type} (gobEncode : T → String) (slice : List T) : List T :=
  ((List.finRange slice.length).foldl
    (fun (st : GoMap String Unit × List T) i =>
      let key := gobEncode slice[i]
      if (st.1.lookup key).isSome then st else (st.1.insert key (), st.2 ++ [slice[i]]))
    (GoMap.empty, [])).2

/-- `DistinctBy`: as `Distinct`, the key being the gob encoding of `fn(slice[i])`. -/
def DistinctBy {T R : Type} (gobEncode : R → String) (slice : List T) (fn : T → R) : List T :=
  ((List.finRange slice.length).foldl
    (fun (st : GoMap String Unit × List T) i =>
      let key := gobEncode (fn slice[i])
      if (st.1.lookup key).isSome then st else (st.1.insert key (), st.2 ++ [slice[i]]))
    (GoMap.empty, [])).2

/-- `Reduce`: `total = fn(total, slice[i])` for every index, from `initial`. -/
def Reduce {T R : Type} (slice : List T) (initial : R) (fn : R → T → R) : R :=
  (List.finRange slice.length).foldl (fun total i => fn total slice[i]) initial

/-- The loop of `Distinct` and `DistinctBy` as a fold over the elements, for a key
function `key`: the keys seen so far and the elements kept so far. -/
def keyLoop {T : Type} (key : T → String) (slice : List T) : GoMap String Unit × List T :=
  slice.foldl
    (fun st x => if (st.1.lookup (key x)).isSome then st
      else (st.1.insert (key x) (), st.2 ++ [x]))
    (GoMap.empty, [])

/-- The struct `person` of the tests of `DistinctBy`: two fields, both unexported. -/
structure person where
  name : String
  age : Int
deriving DecidableEq, Repr

/-- What `gob.NewEncoder(&b).Encode(p)` leaves in the buffer for a `person`. The type
has no exported field: `Encode` writes the description of the type and then fails with
"type has no exported fields", before any byte of the value is written. The bytes are
the same for every `person`; they are abbreviated by the name of the type. -/
def person.gobEncode (_ : person) : String := "person"

/-! ### The parallel executor (its source file is not part of `src/`) -/

/-- Modelled from the spec: the order in which the launched invocations complete.
The spec gives no guarantee on it, so it is driven by an arbitrary choice function:
with `n` invocations still running, the one at position `pick n` (modulo `n`) is the
next to return. The first argument bounds the number of steps. -/
def completionOrder {W : Type} (pick : Nat → Nat) : Nat → List W → List W
  | 0, _ => []
  | _ + 1, [] => []
  | n + 1, w :: ws =>
    let j := pick (ws.length + 1) % (ws.length + 1)
    (w :: ws).getD j w :: completionOrder pick n ((w :: ws).eraseIdx j)

/-- Modelled from the spec: `ForEachParallelWithError`, whose source file is missing
from `src/` (only its tests are there). Following sections 3 and 4.1 of the spec, one
invocation `fn(index, element)` is launched for every work item of the input, all of
them are awaited, and the first error in completion order is returned. The result
pairs the invocations that took place, in completion order, with the returned error.
The concurrency limit only constrains timing and is not part of this model. -/
def ForEachParallelWithError {T E : Type} (pick : Nat → Nat) (slice : List T)
    (fn : Nat → T → Option E) : List (Nat × T) × Option E :=
  let completed := completionOrder pick slice.length slice.enum
  (completed, completed.findSome? (fun w => fn w.1 w.2))

/-! ### slices.go, continued -/

/-- The index expression `slice[i]` for an `int` index, with the check Go makes at run
time: `none` is the panic "index out of range". -/
def indexChecked {T : Type} (slice : List T) (i : Int) : Option T :=
  if 0 ≤ i ∧ i < slice.length then slice[i.toNat]? else none

/-- `Head`, its index expression being checked at run time. -/
def HeadChecked {T : Type} [Inhabited T] (slice : List T) : Option T :=
  if 0 < slice.length then indexChecked slice 0 else some (ZeroValueOf T)

/-- `Tail`: the empty slice for one element, `slice[1:]` for more, the slice itself
otherwise. -/
def Tail {T : Type} (slice : List T) : List T :=
  if slice.length = 1 then []
  else if 1 < slice.length then slice.drop 1
  else slice

/-- `Last`: the last element, or the zero value of `T` for an empty slice. -/
def Last {T : Type} [Inhabited T] (slice : List T) : T :=
  if h : 0 < slice.length then slice[slice.length - 1] else ZeroValueOf T

/-- `Last`, its index expression `slice[len(slice)-1]` being checked at run time. -/
def LastChecked {T : Type} [Inhabited T] (slice : List T) : Option T :=
  if 0 < slice.length then indexChecked slice ((slice.length : Int) - 1)
  else some (ZeroValueOf T)

/-- `Pop`: the last element, `slice[:len(slice)-1]` and `true`; the zero value, the
empty slice and `false` for an empty slice. -/
def Pop {T : Type} [Inhabited T] (slice : List T) : T × List T × Bool :=
  if h : 0 < slice.length then
    (slice[slice.length - 1], slice.take (slice.length - 1), true)
  else (ZeroValueOf T, [], false)

/-- `Shift`: the first element, `slice[1:]` and `true`; the zero value, the empty
slice and `false` for an empty slice. -/
def Shift {T : Type} [Inhabited T] (slice : List T) : T × List T × Bool :=
  if h : 0 < slice.length then (slice[0], slice.drop 1, true)
  else (ZeroValueOf T, [], false)

/-- `FindIndices`: appends every index whose element matches the predicate. The
indices come from `range` and are never negative: they are natural numbers. -/
def FindIndices {T : Type} (slice : List T) (predicate : T → Bool) : List Nat :=
  (List.finRange slice.length).foldl
    (fun indices i => if predicate slice[i] then indices ++ [i.val] else indices) []

/-- `Contains`: returns `true` at the first element for which
`reflect.DeepEqual(slice[i], v)` holds, and `false` after the loop. `reflect.DeepEqual`
is the parameter `deepEqual`; the state of the fold is the value already returned, if
any. -/
def Contains {T : Type} (deepEqual : T → T → Bool) (slice : List T) (v : T) : Bool :=
  ((List.finRange slice.length).foldl
    (fun (returned : Option Bool) i =>
      match returned with
      | some r => some r
      | none => if deepEqual slice[i] v then some true else none)
    none).getD false

/-- A value of the Go type `func()`: nil, or one of the functions of a program, told
apart by a number. -/
inductive goFunc where
  | nil
  | fn (id : Nat)
deriving DecidableEq, Repr

/-- The zero value of a func type is nil. -/
instance : Inhabited goFunc := ⟨goFunc.nil⟩

/-- What `reflect.DeepEqual` answers on two func values, in the words of its
documentation: "Func values are deeply equal if both are nil; otherwise they are not
deeply equal." -/
def goFunc.deepEqual : goFunc → goFunc → Bool
  | .nil, .nil => true
  | _, _ => false

/-- `Flatten`: reduces with `append(a, b...)` from the empty slice. -/
def Flatten {T : Type} (slice : List (List T)) : List T :=
  Reduce slice [] (fun a b => a ++ b)

/-- `FlatMap`: appends `fn(slice[i])...` for every index to an initially empty slice. -/
def FlatMap {T R : Type} (slice : List T) (fn : T → List R) : List R :=
  (List.finRange slice.length).foldl (fun result i => result ++ fn slice[i]) []

/-- The capacity `sliceLen` that `Concat` computes first: the sum of the lengths. -/
def Concat.sliceLen {T : Type} (slices : List (List T)) : Int :=
  Reduce slices 0 (fun initial slice => initial + (slice.length : Int))

/-- `Concat`: reduces from `make([]T, 0, sliceLen)`, an empty slice whatever its
capacity, skipping the empty slices and appending the others. -/
def Concat {T : Type} (slices : List (List T)) : List T :=
  Reduce slices [] (fun a b => if IsEmptySlice b then a else a ++ b)

/-! ### maps.go -/

/-- C1: `WithLimit(n)` applied to a configuration `c` stores `n` as the limit when
`n` is strictly positive and returns `c` unchanged otherwise; `WithLimit(0)` and
`WithLimit(-5)` leave the limit of the default configuration unset. -/
theorem WithLimit_apply_spec (n : Int) (c : sliceOptions) :
    (WithLimit n).apply c = (if 0 < n then { limit := some n } else c) ∧
    ((WithLimit 0).apply sliceOptions.zero).limit = none ∧
    ((WithLimit (-5)).apply sliceOptions.zero).limit = none := by
  refine ⟨?_, by decide, by decide⟩
  simp only [WithLimit, SliceTransformOption.apply, limitOption.apply]
  by_cases h : n ≤ 0
  · simp [h, not_lt.mpr h]
  · simp [h, not_le.mp h]

theorem foldl_apply_limit (ns : List Int) (c : sliceOptions) :
    ((ns.map WithLimit).foldl (fun o opt => opt.apply o) c).limit =
      ((ns.filter (fun n => 0 < n)).getLast?).or c.limit := by
  induction ns generalizing c with
  | nil => simp
  | cons n ns ih =>
    simp only [List.map_cons, List.foldl_cons]
    rw [ih]
    by_cases h : 0 < n
    · have hn : ¬ n ≤ 0 := not_le.mpr h
      simp only [WithLimit, SliceTransformOption.apply, limitOption.apply, hn, if_false,
        List.filter_cons, h, decide_True, if_true]
      cases hf : List.filter (fun n => decide (0 < n)) ns with
      | nil => simp
      | cons a l =>
        have hl := List.getLast?_eq_getLast (a :: l) (List.cons_ne_nil a l)
        simp [hl]
    · have hn : n ≤ 0 := not_lt.mp h
      simp [WithLimit, SliceTransformOption.apply, limitOption.apply, hn, List.filter_cons, h]

/-- C2: starting from the default configuration and applying `WithLimit(n)` for each
`n` of `ns` in order gives as limit the last strictly positive element of `ns`, and no
limit when `ns` has no strictly positive element. -/
theorem WithLimit_sequence_limit (ns : List Int) :
    ((ns.map WithLimit).foldl (fun o opt => opt.apply o) sliceOptions.zero).limit =
        (ns.filter (fun n => 0 < n)).getLast? ∧
    ((∀ n ∈ ns, n ≤ 0) →
      ((ns.map WithLimit).foldl (fun o opt => opt.apply o) sliceOptions.zero).limit = none) := by
  have key := foldl_apply_limit ns sliceOptions.zero
  have hz : sliceOptions.zero.limit = none := rfl
  rw [hz, Option.or_none] at key
  refine ⟨key, fun hall => ?_⟩
  rw [key]
  have : ns.filter (fun n => decide (0 < n)) = [] := by
    rw [List.filter_eq_nil_iff]
    intro a ha
    simpa using hall a ha
  simp [this]

/-! ### The parallel executor -/

theorem getD_cons_eraseIdx_perm {W : Type} (l : List W) (j : Nat) (d : W)
    (hj : j < l.length) : (l.getD j d :: l.eraseIdx j).Perm l := by
  induction l generalizing j with
  | nil => simp at hj
  | cons a t ih =>
    cases j with
    | zero => simp
    | succ k =>
      have hk : k < t.length := by simpa using hj
      simp only [List.getD_cons_succ, List.eraseIdx_cons_succ]
      exact (List.Perm.swap a (t.getD k d) (t.eraseIdx k)).trans ((ih k hk).cons a)

theorem completionOrder_perm {W : Type} (pick : Nat → Nat) (n : Nat) (l : List W)
    (hn : l.length ≤ n) : (completionOrder pick n l).Perm l := by
  induction n generalizing l with
  | zero =>
    have : l = [] := List.length_eq_zero.mp (Nat.le_zero.mp hn)
    subst this
    simp [completionOrder]
  | succ n ih =>
    cases l with
    | nil => simp [completionOrder]
    | cons w ws =>
      have hj : pick (ws.length + 1) % (ws.length + 1) < (w :: ws).length := by
        simpa using Nat.mod_lt _ (Nat.succ_pos ws.length)
      have hlen : ((w :: ws).eraseIdx (pick (ws.length + 1) % (ws.length + 1))).length ≤ n := by
        rw [List.length_eraseIdx, if_pos hj]
        simpa using hn
      simp only [completionOrder]
      exact ((ih _ hlen).cons _).trans (getD_cons_eraseIdx_perm _ _ _ hj)

/-- C4: whatever the completion order, `ForEachParallelWithError` invokes the callback
exactly once per element, with the index the element has in the input (the invocations
are a permutation of the indexed input); it returns no error if and only if no
invocation returned one, in particular for an empty input; and an error it returns
is the error of one of the invocations. -/
theorem ForEachParallelWithError_spec {T E : Type} (pick : Nat → Nat) (slice : List T)
    (fn : Nat → T → Option E) :
    (ForEachParallelWithError pick slice fn).1.Perm slice.enum ∧
    (ForEachParallelWithError pick slice fn).1.length = slice.length ∧
    (∀ w ∈ (ForEachParallelWithError pick slice fn).1, slice[w.1]? = some w.2) ∧
    ((ForEachParallelWithError pick slice fn).2 = none ↔
      ∀ i x, slice[i]? = some x → fn i x = none) ∧
    (∀ e, (ForEachParallelWithError pick slice fn).2 = some e →
      ∃ i x, slice[i]? = some x ∧ fn i x = some e) ∧
    (ForEachParallelWithError pick ([] : List T) fn).2 = none := by
  have hp : (completionOrder pick slice.length slice.enum).Perm slice.enum :=
    completionOrder_perm pick slice.length slice.enum (by simp [List.enum_length])
  refine ⟨hp, ?_, ?_, ?_, ?_, ?_⟩
  · simpa [List.enum_length] using hp.length_eq
  · intro w hw
    exact List.mem_enum_iff_getElem?.mp (hp.mem_iff.mp hw)
  · simp only [ForEachParallelWithError, List.findSome?_eq_none_iff]
    constructor
    · intro h i x hix
      exact h (i, x) (hp.mem_iff.mpr (List.mk_mem_enum_iff_getElem?.mpr hix))
    · intro h w hw
      exact h w.1 w.2 (List.mem_enum_iff_getElem?.mp (hp.mem_iff.mp hw))
  · intro e he
    obtain ⟨w, hw, hfw⟩ := List.exists_of_findSome?_eq_some he
    exact ⟨w.1, w.2, List.mem_enum_iff_getElem?.mp (hp.mem_iff.mp hw), hfw⟩
  · simp [ForEachParallelWithError, completionOrder]

/-! ### Loops over the indices of a slice -/

theorem foldl_finRange {T σ : Type} (l : List T) (f : σ → T → σ) (init : σ) :
    (List.finRange l.length).foldl (fun acc i => f acc l[i]) init = l.foldl f init := by
  conv_rhs => rw [← List.finRange_map_get l]
  rw [List.foldl_map]
  rfl

theorem Find_eq_filter {T : Type} (slice : List T) (predicate : T → Bool) :
    Find slice predicate = slice.filter predicate := by
  have h := foldl_finRange slice (fun s x => if predicate x then s ++ [x] else s) []
  have gen : ∀ (l acc : List T),
      l.foldl (fun s x => if predicate x then s ++ [x] else s) acc
        = acc ++ l.filter predicate := by
    intro l
    induction l with
    | nil => simp
    | cons a t ih =>
      intro acc
      rw [List.foldl_cons, ih]
      by_cases hp : predicate a <;> simp [hp, List.filter_cons]
  unfold Find
  rw [h, gen]
  simp

/-! ### FindFirst, Find and Filter -/

/-- C5: on the slice `[0, 7]` of integers with the predicate "equals 0" an element
matches, and `FindFirst` returns `(0, false)`: the first match is the zero value of
the type, which `FindFirst` reports as "not found". -/
theorem FindFirst_zero_match :
    (∃ x ∈ ([0, 7] : List Int), (x == 0) = true) ∧
    FindFirst ([0, 7] : List Int) (fun x => x == 0) = (0, false) := by
  decide

/-- What `FindFirst` does in general: the value is the first match, or the zero value
when nothing matches, and the flag tells whether that value differs from the zero
value. The flag is therefore the "found" flag exactly when the first match, if any, is
not the zero value. -/
theorem FindFirst_eq_head_filter {T : Type} [Inhabited T] [DecidableEq T] (slice : List T)
    (predicate : T → Bool) :
    FindFirst slice predicate =
      ((slice.filter predicate).headD default,
        decide ((slice.filter predicate).headD default ≠ default)) := by
  unfold FindFirst
  rw [Find_eq_filter]
  cases hf : slice.filter predicate with
  | nil => simp [Head, IsZeroValue, ZeroValueOf]
  | cons a t => simp [Head, IsZeroValue, ZeroValueOf]

/-- C6: `Find` and `Filter` return the same sequence, the elements of the slice that
satisfy the predicate in their original order; it is empty when no element matches. -/
theorem Find_eq_Filter {T : Type} (slice : List T) (predicate : T → Bool) :
    Find slice predicate = Filter slice predicate ∧
    Find slice predicate = slice.filter predicate ∧
    Filter slice predicate = slice.filter predicate ∧
    ((∀ x ∈ slice, predicate x = false) →
      Find slice predicate = [] ∧ Filter slice predicate = []) := by
  have hF : Filter slice predicate = Find slice predicate := rfl
  have h := Find_eq_filter slice predicate
  refine ⟨hF.symm, h, hF.trans h, fun hall => ?_⟩
  have hnil : slice.filter predicate = [] := by
    rw [List.filter_eq_nil_iff]
    intro a ha
    simp [hall a ha]
  exact ⟨h.trans hnil, (hF.trans h).trans hnil⟩

/-! ### Replace -/

theorem MapSt_eq_foldl {T R σ : Type} (slice : List T) (fn : T → σ → R × σ) (st : σ) :
    MapSt slice fn st =
      slice.foldl (fun acc x => ((acc.1 ++ [(fn x acc.2).1], (fn x acc.2).2) : List R × σ))
        ([], st) := by
  unfold MapSt
  exact foldl_finRange slice
    (fun (acc : List R × σ) x => (acc.1 ++ [(fn x acc.2).1], (fn x acc.2).2)) ([], st)

theorem Replace_foldl {T : Type} (v : T) (predicate : T → Bool) (l acc : List T) (c : Int) :
    l.foldl (fun (a : List T × Int) x =>
        (a.1 ++ [(if predicate x then (v, a.2 + 1) else (x, a.2)).1],
          (if predicate x then (v, a.2 + 1) else (x, a.2)).2)) (acc, c)
      = (acc ++ l.map (fun x => if predicate x then v else x),
          c + (l.countP predicate : Int)) := by
  induction l generalizing acc c with
  | nil => simp
  | cons a t ih =>
    rw [List.foldl_cons]
    by_cases hp : predicate a
    · simp only [hp, if_true]
      rw [ih]
      simp [List.countP_cons, hp]
      omega
    · simp only [hp]
      rw [ih]
      simp [List.countP_cons, hp]

/-- C10: `Replace(s, v, p)` returns a slice of the length of `s` whose `i`-th element is
`v` when `p(s[i])` holds and `s[i]` otherwise, and the number of elements of `s` that
satisfy `p`. -/
theorem Replace_spec {T : Type} (slice : List T) (v : T) (predicate : T → Bool) :
    (Replace slice v predicate).1.length = slice.length ∧
    (∀ i : Nat, (Replace slice v predicate).1[i]? =
      (slice[i]?).map (fun x => if predicate x then v else x)) ∧
    (Replace slice v predicate).2 = (slice.countP predicate : Int) := by
  have h : Replace slice v predicate =
      (slice.map (fun x => if predicate x then v else x), (slice.countP predicate : Int)) := by
    unfold Replace
    rw [MapSt_eq_foldl, Replace_foldl]
    simp
  rw [h]
  refine ⟨by simp, fun i => by simp, rfl⟩

/-! ### Go maps -/

theorem assocGet_assocSet {K V : Type} [DecidableEq K] (l : List (K × V)) (k : K) (v : V)
    (k2 : K) : assocGet (assocSet l k v) k2 = if k = k2 then some v else assocGet l k2 := by
  induction l with
  | nil => simp [assocSet, assocGet]
  | cons p rest ih =>
    obtain ⟨a, b⟩ := p
    by_cases hak : a = k
    · subst hak
      by_cases h2 : a = k2 <;> simp [assocSet, assocGet, h2]
    · by_cases h2 : a = k2
      · subst h2
        simp [assocSet, assocGet, hak, Ne.symm hak]
      · simp [assocSet, assocGet, hak, h2, ih]

theorem GoMap.lookup_insert {K V : Type} [DecidableEq K] (m : GoMap K V) (k : K) (v : V)
    (k2 : K) : (m.insert k v).lookup k2 = if k = k2 then some v else m.lookup k2 :=
  assocGet_assocSet m.entries k v k2

theorem Reduce_eq_foldl {T R : Type} (slice : List T) (initial : R) (fn : R → T → R) :
    Reduce slice initial fn = slice.foldl fn initial :=
  foldl_finRange slice fn initial

theorem Distinct_eq_keyLoop {T : Type} (gobEncode : T → String) (slice : List T) :
    Distinct gobEncode slice = (keyLoop gobEncode slice).2 := by
  unfold Distinct keyLoop
  exact congrArg Prod.snd (foldl_finRange slice
    (fun (st : GoMap String Unit × List T) x =>
      if (st.1.lookup (gobEncode x)).isSome then st
      else (st.1.insert (gobEncode x) (), st.2 ++ [x])) (GoMap.empty, []))

theorem DistinctBy_eq_keyLoop {T R : Type} (gobEncode : R → String) (slice : List T)
    (fn : T → R) :
    DistinctBy gobEncode slice fn = (keyLoop (fun x => gobEncode (fn x)) slice).2 := by
  unfold DistinctBy keyLoop
  exact congrArg Prod.snd (foldl_finRange slice
    (fun (st : GoMap String Unit × List T) x =>
      if (st.1.lookup (gobEncode (fn x))).isSome then st
      else (st.1.insert (gobEncode (fn x)) (), st.2 ++ [x])) (GoMap.empty, []))

theorem keyLoop_snoc {T : Type} (key : T → String) (s : List T) (x : T) :
    keyLoop key (s ++ [x]) =
      if ((keyLoop key s).1.lookup (key x)).isSome then keyLoop key s
      else ((keyLoop key s).1.insert (key x) (), (keyLoop key s).2 ++ [x]) := by
  simp [keyLoop, List.foldl_append]

theorem keyLoop_seen {T : Type} (key : T → String) (s : List T) (k : String) :
    ((keyLoop key s).1.lookup k).isSome = true ↔ k ∈ s.map key := by
  induction s using List.reverseRecOn generalizing k with
  | nil => simp [keyLoop, GoMap.lookup, GoMap.empty, assocGet]
  | append_singleton s x ih =>
    rw [keyLoop_snoc]
    by_cases hx : ((keyLoop key s).1.lookup (key x)).isSome = true
    · rw [if_pos hx, ih k]
      have hxm : key x ∈ s.map key := (ih (key x)).mp hx
      simp only [List.map_append, List.map_cons, List.map_nil, List.mem_append,
        List.mem_singleton]
      constructor
      · exact Or.inl
      · rintro (h | h)
        · exact h
        · exact h ▸ hxm
    · rw [if_neg hx]
      simp only [GoMap.lookup_insert, List.map_append, List.map_cons, List.map_nil,
        List.mem_append, List.mem_singleton]
      by_cases hk : key x = k
      · simp [hk]
      · simp only [hk, if_false, ih k]
        constructor
        · exact Or.inl
        · rintro (h | h)
          · exact h
          · exact absurd h.symm hk

theorem keyLoop_kept_nil {T : Type} (key : T → String) : (keyLoop key []).2 = [] := rfl

theorem keyLoop_kept_snoc {T : Type} (key : T → String) (s : List T) (x : T) :
    (keyLoop key (s ++ [x])).2 =
      if key x ∈ s.map key then (keyLoop key s).2 else (keyLoop key s).2 ++ [x] := by
  rw [keyLoop_snoc]
  by_cases hx : key x ∈ s.map key
  · rw [if_pos ((keyLoop_seen key s (key x)).mpr hx), if_pos hx]
  · rw [if_neg (fun h => hx ((keyLoop_seen key s (key x)).mp h)), if_neg hx]

theorem keyLoop_sublist {T : Type} (key : T → String) (s : List T) :
    (keyLoop key s).2.Sublist s := by
  induction s using List.reverseRecOn with
  | nil => simp [keyLoop_kept_nil]
  | append_singleton s x ih =>
    rw [keyLoop_kept_snoc]
    by_cases hx : key x ∈ s.map key
    · rw [if_pos hx]
      exact ih.trans (List.sublist_append_left s [x])
    · rw [if_neg hx]
      exact ih.append_right [x]

theorem keyLoop_covers {T : Type} (key : T → String) (s : List T) :
    ∀ x ∈ s, ∃ y ∈ (keyLoop key s).2, key y = key x := by
  induction s using List.reverseRecOn with
  | nil => simp
  | append_singleton s x ih =>
    intro z hz
    rw [keyLoop_kept_snoc]
    rcases List.mem_append.mp hz with hzs | hzx
    · obtain ⟨y, hy, hyz⟩ := ih z hzs
      by_cases hx : key x ∈ s.map key
      · rw [if_pos hx]
        exact ⟨y, hy, hyz⟩
      · rw [if_neg hx]
        exact ⟨y, List.mem_append_left _ hy, hyz⟩
    · have hzx2 : z = x := by simpa using hzx
      subst hzx2
      by_cases hx : key z ∈ s.map key
      · rw [if_pos hx]
        obtain ⟨w, hw, hwz⟩ := List.mem_map.mp hx
        obtain ⟨y, hy, hyw⟩ := ih w hw
        exact ⟨y, hy, hyw.trans hwz⟩
      · rw [if_neg hx]
        exact ⟨z, by simp, rfl⟩

theorem keyLoop_first_index {T : Type} (key : T → String) (s : List T) :
    ((keyLoop key s).2.map (fun y => (s.map key).indexOf (key y))).Pairwise (· < ·) := by
  induction s using List.reverseRecOn with
  | nil => simp [keyLoop_kept_nil]
  | append_singleton s x ih =>
    have hmem : ∀ y ∈ (keyLoop key s).2, key y ∈ s.map key := fun y hy =>
      List.mem_map_of_mem key ((keyLoop_sublist key s).subset hy)
    have hsame : (keyLoop key s).2.map (fun y => ((s ++ [x]).map key).indexOf (key y))
        = (keyLoop key s).2.map (fun y => (s.map key).indexOf (key y)) := by
      apply List.map_congr_left
      intro y hy
      rw [List.map_append, List.indexOf_append_of_mem (hmem y hy)]
    rw [keyLoop_kept_snoc]
    by_cases hx : key x ∈ s.map key
    · rw [if_pos hx, hsame]
      exact ih
    · rw [if_neg hx, List.map_append, hsame, List.pairwise_append]
      refine ⟨ih, by simp, ?_⟩
      intro a ha b hb
      obtain ⟨y, hy, rfl⟩ := List.mem_map.mp ha
      have hb2 : b = (s.map key).length := by
        have : b = ((s ++ [x]).map key).indexOf (key x) := by simpa using hb
        rw [this, List.map_append, List.indexOf_append_of_not_mem hx]
        simp
      rw [hb2]
      exact List.indexOf_lt_length.mpr (hmem y hy)

theorem keyLoop_is_first {T : Type} (key : T → String) (s : List T) :
    ∀ y ∈ (keyLoop key s).2, s.find? (fun x => key x = key y) = some y := by
  induction s using List.reverseRecOn with
  | nil => simp [keyLoop_kept_nil]
  | append_singleton s x ih =>
    intro y hy
    rw [keyLoop_kept_snoc] at hy
    rw [List.find?_append]
    by_cases hx : key x ∈ s.map key
    · rw [if_pos hx] at hy
      rw [ih y hy]
      rfl
    · rw [if_neg hx] at hy
      rcases List.mem_append.mp hy with hys | hyx
      · rw [ih y hys]
        rfl
      · have hyx2 : y = x := by simpa using hyx
        subst hyx2
        have hnone : s.find? (fun x => decide (key x = key y)) = none := by
          rw [List.find?_eq_none]
          intro z hz hkz
          exact hx (List.mem_map.mpr ⟨z, hz, by simpa using hkz⟩)
        rw [hnone]
        simp

theorem indexOf_map_of_injective {T K : Type} [DecidableEq T] [DecidableEq K] (key : T → K)
    (hinj : Function.Injective key) (s : List T) (y : T) :
    (s.map key).indexOf (key y) = s.indexOf y := by
  induction s with
  | nil => simp
  | cons a t ih =>
    by_cases hay : a = y
    · subst hay
      simp
    · have hk : key a ≠ key y := fun h => hay (hinj h)
      rw [List.map_cons, List.indexOf_cons_ne _ hk, List.indexOf_cons_ne _ hay, ih]

/-- What `Distinct` does for an arbitrary encoder: it returns a subsequence of the
slice in which no two elements have the same encoding, every element of the slice has
the encoding of a kept element, and each kept element is the first element of the
slice with its encoding, the kept elements being in the order of those first
occurrences. -/
theorem Distinct_keyed {T : Type} (gobEncode : T → String) (slice : List T) :
    (Distinct gobEncode slice).Sublist slice ∧
    (Distinct gobEncode slice).Pairwise (fun a b => gobEncode a ≠ gobEncode b) ∧
    (∀ x ∈ slice, ∃ y ∈ Distinct gobEncode slice, gobEncode y = gobEncode x) ∧
    (∀ y ∈ Distinct gobEncode slice,
      slice.find? (fun x => gobEncode x = gobEncode y) = some y) ∧
    ((Distinct gobEncode slice).map
      (fun y => (slice.map gobEncode).indexOf (gobEncode y))).Pairwise (· < ·) := by
  rw [Distinct_eq_keyLoop]
  refine ⟨keyLoop_sublist _ _, ?_, keyLoop_covers _ _, keyLoop_is_first _ _,
    keyLoop_first_index _ _⟩
  have h := keyLoop_first_index gobEncode slice
  rw [List.pairwise_map] at h
  exact h.imp (fun {a b} hab heq => by rw [heq] at hab; exact lt_irrefl _ hab)

/-- Where the encoder distinguishes all values of the element type, `Distinct` returns
no two equal elements, exactly the values that occur in the slice, in the order of
their first occurrence. -/
theorem Distinct_of_injective {T : Type} [DecidableEq T] (gobEncode : T → String)
    (hinj : Function.Injective gobEncode) (slice : List T) :
    (Distinct gobEncode slice).Nodup ∧
    (∀ x, x ∈ Distinct gobEncode slice ↔ x ∈ slice) ∧
    ((Distinct gobEncode slice).map (fun y => slice.indexOf y)).Pairwise (· < ·) := by
  obtain ⟨hsub, hpw, hcov, -, hidx⟩ := Distinct_keyed gobEncode slice
  refine ⟨hpw.imp (fun {a b} hab heq => hab (congrArg gobEncode heq)), fun x => ⟨?_, ?_⟩, ?_⟩
  · exact fun hx => hsub.subset hx
  · intro hx
    obtain ⟨y, hy, hyx⟩ := hcov x hx
    exact hinj hyx ▸ hy
  · have hfun : (fun y => (slice.map gobEncode).indexOf (gobEncode y))
        = (fun y => slice.indexOf y) :=
      funext (fun y => indexOf_map_of_injective gobEncode hinj slice y)
    rw [hfun] at hidx
    exact hidx

/-- What `DistinctBy` does for an arbitrary encoder of the keys: it returns a
subsequence of the slice in which no two elements have keys with the same encoding,
every element of the slice has a key with the encoding of the key of a kept element,
and each kept element is the first element of the slice whose key has that encoding. -/
theorem DistinctBy_keyed {T R : Type} (gobEncode : R → String) (slice : List T)
    (fn : T → R) :
    (DistinctBy gobEncode slice fn).Sublist slice ∧
    (DistinctBy gobEncode slice fn).Pairwise
      (fun a b => gobEncode (fn a) ≠ gobEncode (fn b)) ∧
    (∀ x ∈ slice, ∃ y ∈ DistinctBy gobEncode slice fn,
      gobEncode (fn y) = gobEncode (fn x)) ∧
    (∀ y ∈ DistinctBy gobEncode slice fn,
      slice.find? (fun x => gobEncode (fn x) = gobEncode (fn y)) = some y) := by
  rw [DistinctBy_eq_keyLoop]
  refine ⟨keyLoop_sublist _ _, ?_, keyLoop_covers _ _, keyLoop_is_first _ _⟩
  have h := keyLoop_first_index (fun x => gobEncode (fn x)) slice
  rw [List.pairwise_map] at h
  exact h.imp (fun {a b} hab heq => by rw [heq] at hab; exact lt_irrefl _ hab)

/-- C7: for the two different persons `{a 1}` and `{b 2}`, whose gob encodings are the
same, `Distinct` returns `{a 1}` only: the value `{b 2}` occurs in the slice and not
in the result. -/
theorem Distinct_person_drops_value :
    Distinct person.gobEncode [⟨"a", 1⟩, ⟨"b", 2⟩] = [⟨"a", 1⟩] ∧
    (⟨"b", 2⟩ : person) ∈ [(⟨"a", 1⟩ : person), ⟨"b", 2⟩] ∧
    (⟨"b", 2⟩ : person) ∉ Distinct person.gobEncode [⟨"a", 1⟩, ⟨"b", 2⟩] := by
  decide

/-- C8: with the key function that makes of an age the person `{n age}`,
`DistinctBy` keeps only the first of the ages 1 and 2, whose keys are different and
have the same gob encoding: the key `{n 2}` of the element 2 is the key of no kept
element. -/
theorem DistinctBy_person_key_drops_key :
    DistinctBy person.gobEncode [(1 : Int), 2] (fun i => (⟨"n", i⟩ : person)) = [1] ∧
    ¬ ∃ y ∈ DistinctBy person.gobEncode [(1 : Int), 2] (fun i => (⟨"n", i⟩ : person)),
        (⟨"n", y⟩ : person) = ⟨"n", 2⟩ := by
  decide

/-! ### Head, Tail, Last, Pop and Shift -/

/-- C11: for a non-empty slice `Pop` returns its last element, the slice without that
element and `true`, so that the remainder followed by the element is the slice again;
for the empty slice it returns the zero value, the empty slice and `false`. -/
theorem Pop_spec {T : Type} [Inhabited T] (slice : List T) (h : slice ≠ []) :
    Pop slice = (slice.getLast h, slice.dropLast, true) ∧
    (Pop slice).2.1 ++ [(Pop slice).1] = slice ∧
    Pop ([] : List T) = (default, [], false) := by
  have hlen : 0 < slice.length := List.length_pos.mpr h
  have hpop : Pop slice = (slice.getLast h, slice.dropLast, true) := by
    unfold Pop
    rw [dif_pos hlen, List.getLast_eq_getElem, List.dropLast_eq_take]
  refine ⟨hpop, ?_, ?_⟩
  · rw [hpop]
    exact List.dropLast_append_getLast h
  · simp [Pop, ZeroValueOf]

theorem Pop_spec_witness :
    Pop ([1, 2, 3] : List Int) = (3, [1, 2], true) ∧
    (Pop ([1, 2, 3] : List Int)).2.1 ++ [(Pop ([1, 2, 3] : List Int)).1] = [1, 2, 3] ∧
    Pop ([] : List Int) = (default, [], false) :=
  Pop_spec ([1, 2, 3] : List Int) (by decide)

/-- C12: for a non-empty slice `Shift` returns its first element, the slice without
that element and `true`, so that the element followed by the remainder is the slice
again; for the empty slice it returns the zero value, the empty slice and `false`. -/
theorem Shift_spec {T : Type} [Inhabited T] (slice : List T) (h : slice ≠ []) :
    Shift slice = (slice.head h, slice.tail, true) ∧
    (Shift slice).1 :: (Shift slice).2.1 = slice ∧
    Shift ([] : List T) = (default, [], false) := by
  have hshift : Shift slice = (slice.head h, slice.tail, true) := by
    cases slice with
    | nil => exact absurd rfl h
    | cons a t => simp [Shift]
  refine ⟨hshift, ?_, ?_⟩
  · rw [hshift]
    exact List.head_cons_tail slice h
  · simp [Shift, ZeroValueOf]

theorem Shift_spec_witness :
    Shift ([1, 2, 3] : List Int) = (1, [2, 3], true) ∧
    (Shift ([1, 2, 3] : List Int)).1 :: (Shift ([1, 2, 3] : List Int)).2.1 = [1, 2, 3] ∧
    Shift ([] : List Int) = (default, [], false) :=
  Shift_spec ([1, 2, 3] : List Int) (by decide)

/-- C13: `Head` and `Last` are total. With the index expressions checked as Go checks
them at run time, neither panics on any slice; on a non-empty slice they return
`s[0]` and `s[len(s)-1]`, and on the empty slice the zero value of the type. -/
theorem Head_Last_total {T : Type} [Inhabited T] (slice : List T) :
    HeadChecked slice = some (Head slice) ∧
    LastChecked slice = some (Last slice) ∧
    (∀ h : 0 < slice.length, Head slice = slice[0] ∧ Last slice = slice[slice.length - 1]) ∧
    Head ([] : List T) = default ∧
    Last ([] : List T) = default := by
  refine ⟨?_, ?_, ?_, ?_, ?_⟩
  · cases slice with
    | nil => simp [HeadChecked, Head]
    | cons a t => simp [HeadChecked, Head, indexChecked]
  · by_cases h : 0 < slice.length
    · have h1 : (0 : Int) ≤ (slice.length : Int) - 1 := by omega
      have h2 : ((slice.length : Int) - 1).toNat = slice.length - 1 := by omega
      have h3 : slice.length - 1 < slice.length := by omega
      simp only [LastChecked, Last, h, if_true, dif_pos, indexChecked, h1, true_and,
        sub_lt_self_iff, zero_lt_one, h2]
      exact List.getElem?_eq_getElem h3
    · simp [LastChecked, Last, h]
  · intro h
    simp [Head, Last, h]
  · simp [Head, ZeroValueOf]
  · simp [Last, ZeroValueOf]

/-- C14: `Tail` returns the slice without its first element: for a non-empty slice its
length is `len(s)-1` and its `i`-th element is `s[i+1]`; it is empty when the slice is
empty or has exactly one element. -/
theorem Tail_spec {T : Type} (slice : List T) :
    Tail slice = slice.drop 1 ∧
    (slice ≠ [] → (Tail slice).length = slice.length - 1 ∧
      ∀ i : Nat, (Tail slice)[i]? = slice[i + 1]?) ∧
    Tail ([] : List T) = [] ∧
    (∀ x : T, Tail [x] = []) := by
  have hdrop : Tail slice = slice.drop 1 := by
    cases slice with
    | nil => simp [Tail]
    | cons a t =>
      cases t with
      | nil => simp [Tail]
      | cons b u => simp [Tail]
  refine ⟨hdrop, fun _ => ?_, by simp [Tail], fun x => by simp [Tail]⟩
  rw [hdrop]
  refine ⟨by simp, fun i => ?_⟩
  rw [List.getElem?_drop, Nat.add_comm]

/-! ### FindIndices -/

theorem finRange_map_enum {T : Type} (l : List T) :
    (List.finRange l.length).map (fun i => (i.val, l[i])) = l.enum := by
  apply List.ext_getElem
  · simp
  · intro n h1 h2
    simp [List.getElem_enum]

theorem foldl_finRange_enum {T σ : Type} (l : List T) (g : σ → Nat → T → σ) (init : σ) :
    (List.finRange l.length).foldl (fun acc i => g acc i.val l[i]) init
      = l.enum.foldl (fun acc p => g acc p.1 p.2) init := by
  rw [← finRange_map_enum l, List.foldl_map]

theorem FindIndices_foldl {T : Type} (predicate : T → Bool) (l : List (Nat × T))
    (acc : List Nat) :
    l.foldl (fun indices p => if predicate p.2 then indices ++ [p.1] else indices) acc
      = acc ++ (l.filter (fun p => predicate p.2)).map Prod.fst := by
  induction l generalizing acc with
  | nil => simp
  | cons a t ih =>
    rw [List.foldl_cons, ih]
    by_cases hp : predicate a.2 <;> simp [hp, List.filter_cons]

theorem FindIndices_eq {T : Type} (slice : List T) (predicate : T → Bool) :
    FindIndices slice predicate
      = (slice.enum.filter (fun p => predicate p.2)).map Prod.fst := by
  unfold FindIndices
  have h := foldl_finRange_enum slice
    (fun (indices : List Nat) i x => if predicate x then indices ++ [i] else indices) []
  rw [h, FindIndices_foldl]
  simp

/-- C15: `FindIndices(s, p)` is strictly increasing and its elements are exactly the
indices `i` with `i < len(s)` for which `p(s[i])` holds. -/
theorem FindIndices_spec {T : Type} (slice : List T) (predicate : T → Bool) :
    (FindIndices slice predicate).Pairwise (· < ·) ∧
    (∀ i : Nat, i ∈ FindIndices slice predicate ↔
      ∃ h : i < slice.length, predicate slice[i] = true) := by
  rw [FindIndices_eq]
  constructor
  · have hsub : ((slice.enum.filter (fun p => predicate p.2)).map Prod.fst).Sublist
        (slice.enum.map Prod.fst) := (List.filter_sublist _).map Prod.fst
    rw [List.enum_map_fst] at hsub
    exact (List.pairwise_lt_range slice.length).sublist hsub
  · intro i
    simp only [List.mem_map, List.mem_filter, Prod.exists, exists_and_right, exists_eq_right]
    constructor
    · rintro ⟨x, hmem, hp⟩
      obtain ⟨hlt, hx⟩ := List.mem_enum hmem
      exact ⟨hlt, hx ▸ hp⟩
    · rintro ⟨hlt, hp⟩
      refine ⟨slice[i], ?_, hp⟩
      exact List.mk_mem_enum_iff_getElem?.mpr (List.getElem?_eq_getElem hlt)

/-! ### Flatten, Concat, Map and FlatMap -/

theorem foldl_append_flatten {T : Type} (ss : List (List T)) (acc : List T) :
    ss.foldl (fun a b => a ++ b) acc = acc ++ ss.flatten := by
  induction ss generalizing acc with
  | nil => simp
  | cons b t ih => rw [List.foldl_cons, ih]; simp

theorem Flatten_eq_flatten {T : Type} (ss : List (List T)) : Flatten ss = ss.flatten := by
  unfold Flatten
  rw [Reduce_eq_foldl, foldl_append_flatten]
  simp

theorem Concat_eq_flatten {T : Type} (ss : List (List T)) : Concat ss = ss.flatten := by
  have hstep : (fun (a b : List T) => if IsEmptySlice b then a else a ++ b)
      = (fun a b => a ++ b) := by
    funext a b
    by_cases hb : b = []
    · simp [hb]
    · have : ¬ b.length ≤ 0 := by
        have := List.length_pos.mpr hb
        omega
      simp [IsEmptySlice, this]
  unfold Concat
  rw [Reduce_eq_foldl, hstep, foldl_append_flatten]
  simp

theorem sliceLen_foldl {T : Type} (ss : List (List T)) (acc : Int) :
    ss.foldl (fun initial slice => initial + (slice.length : Int)) acc
      = acc + ((ss.map List.length).sum : Nat) := by
  induction ss generalizing acc with
  | nil => simp
  | cons b t ih =>
    rw [List.foldl_cons, ih]
    simp only [List.map_cons, List.sum_cons, Nat.cast_add]
    omega

theorem Map_eq_map {T R : Type} (slice : List T) (fn : T → R) : Map slice fn = slice.map fn := by
  have gen : ∀ (l : List T) (acc : List R),
      l.foldl (fun (a : List R × Unit) x => (a.1 ++ [fn x], ())) (acc, ())
        = (acc ++ l.map fn, ()) := by
    intro l
    induction l with
    | nil => simp
    | cons a t ih =>
      intro acc
      rw [List.foldl_cons, ih]
      simp
  unfold Map
  rw [MapSt_eq_foldl]
  have h := gen slice []
  simp only [List.nil_append] at h
  exact congrArg Prod.fst h

theorem FlatMap_eq_flatten_map {T R : Type} (slice : List T) (fn : T → List R) :
    FlatMap slice fn = (slice.map fn).flatten := by
  have gen : ∀ (l : List T) (acc : List R),
      l.foldl (fun result x => result ++ fn x) acc = acc ++ (l.map fn).flatten := by
    intro l
    induction l with
    | nil => simp
    | cons a t ih =>
      intro acc
      rw [List.foldl_cons, ih]
      simp
  unfold FlatMap
  rw [foldl_finRange slice (fun result x => result ++ fn x) [], gen]
  simp

/-- C16: `Concat` and `Flatten` return the same slice, the elements of the first inner
slice, then of the second, and so on; an empty inner slice contributes nothing; the
length is the sum of the inner lengths, the capacity `Concat` computes beforehand. -/
theorem Concat_eq_Flatten {T : Type} (ss : List (List T)) :
    Concat ss = Flatten ss ∧
    Flatten ss = ss.flatten ∧
    (∀ ss1 ss2 : List (List T), Concat (ss1 ++ [] :: ss2) = Concat (ss1 ++ ss2) ∧
      Flatten (ss1 ++ [] :: ss2) = Flatten (ss1 ++ ss2)) ∧
    (Concat ss).length = (ss.map List.length).sum ∧
    ((Concat ss).length : Int) = Concat.sliceLen ss := by
  have hlen : (Concat ss).length = (ss.map List.length).sum := by
    rw [Concat_eq_flatten, List.length_flatten]
  refine ⟨?_, Flatten_eq_flatten ss, fun ss1 ss2 => ?_, hlen, ?_⟩
  · rw [Concat_eq_flatten, Flatten_eq_flatten]
  · simp [Concat_eq_flatten, Flatten_eq_flatten]
  · unfold Concat.sliceLen
    rw [Reduce_eq_foldl, sliceLen_foldl, hlen]
    simp

/-- C17: `FlatMap(s, fn)` equals `Flatten(Map(s, fn))`. -/
theorem FlatMap_eq_Flatten_Map {T R : Type} (slice : List T) (fn : T → List R) :
    FlatMap slice fn = Flatten (Map slice fn) := by
  rw [FlatMap_eq_flatten_map, Flatten_eq_flatten, Map_eq_map]

/-! ### Maps built by successive writes -/

theorem Contains_foldl {T : Type} (deepEqual : T → T → Bool) (v : T) (l : List T)
    (returned : Option Bool) :
    l.foldl (fun (returned : Option Bool) x =>
        match returned with
        | some r => some r
        | none => if deepEqual x v then some true else none) returned
      = match returned with
        | some r => some r
        | none => if l.any (fun x => deepEqual x v) then some true else none := by
  induction l generalizing returned with
  | nil => cases returned <;> simp
  | cons a t ih =>
    rw [List.foldl_cons, ih]
    cases returned with
    | some r => rfl
    | none =>
      by_cases hav : deepEqual a v = true
      · simp [hav]
      · simp [hav]

theorem Contains_eq_any {T : Type} (deepEqual : T → T → Bool) (slice : List T) (v : T) :
    Contains deepEqual slice v = slice.any (fun x => deepEqual x v) := by
  unfold Contains
  have h := foldl_finRange slice (fun (returned : Option Bool) x =>
        match returned with
        | some r => some r
        | none => if deepEqual x v then some true else none) none
  rw [h, Contains_foldl]
  cases slice.any (fun x => deepEqual x v) <;> rfl

theorem Contains_iff_exists {T : Type} (deepEqual : T → T → Bool) (slice : List T) (v : T) :
    Contains deepEqual slice v = true ↔ ∃ x ∈ slice, deepEqual x v = true := by
  rw [Contains_eq_any, List.any_eq_true]

/-- C21: `Contains(s, v)` is true if and only if `reflect.DeepEqual(x, v)`, the
structural equality the code compares with, holds for some element `x` of `s`; it is
false for the empty slice; where `reflect.DeepEqual` is the equality of the element
type, `Contains(s, v)` is true if and only if `v` is an element of `s`. -/
theorem Contains_spec {T : Type} (deepEqual : T → T → Bool) (slice : List T) (v : T) :
    (Contains deepEqual slice v = true ↔ ∃ x ∈ slice, deepEqual x v = true) ∧
    Contains deepEqual ([] : List T) v = false ∧
    ((∀ a b, deepEqual a b = true ↔ a = b) →
      (Contains deepEqual slice v = true ↔ v ∈ slice)) := by
  refine ⟨Contains_iff_exists deepEqual slice v, ?_, fun heq => ?_⟩
  · rw [Contains_eq_any]
    rfl
  · rw [Contains_iff_exists]
    constructor
    · rintro ⟨x, hx, hxv⟩
      exact (heq x v).mp hxv ▸ hx
    · exact fun hv => ⟨v, hv, (heq v v).mpr rfl⟩

/-- C22: `Reduce(s, a, fn)` is the left-to-right fold of `fn` over `s` from `a`: it is
`a` for the empty slice, it starts with `fn(a, s[0])`, and
`Reduce(s ++ [x], a, fn) = fn(Reduce(s, a, fn), x)`. -/
theorem Reduce_spec {T R : Type} (slice : List T) (initial : R) (fn : R → T → R) :
    Reduce slice initial fn = slice.foldl fn initial ∧
    Reduce ([] : List T) initial fn = initial ∧
    (∀ x : T, Reduce (x :: slice) initial fn = Reduce slice (fn initial x) fn) ∧
    (∀ x : T, Reduce (slice ++ [x]) initial fn = fn (Reduce slice initial fn) x) := by
  refine ⟨Reduce_eq_foldl slice initial fn, ?_, fun x => ?_, fun x => ?_⟩
  · rw [Reduce_eq_foldl]
    rfl
  · rw [Reduce_eq_foldl, Reduce_eq_foldl]
    rfl
  · rw [Reduce_eq_foldl, Reduce_eq_foldl, List.foldl_concat]

theorem enum_filter_snd {T : Type} (slice : List T) (predicate : T → Bool) :
    (slice.enum.filter (fun e => predicate e.2)).map Prod.snd = slice.filter predicate := by
  have h := List.filter_map (p := predicate) Prod.snd slice.enum
  rw [List.enum_map_snd] at h
  rw [h]
  rfl

/-- C23: reading the slice at the indices that `FindIndices(s, p)` returns, in order,
gives `Find(s, p)`: every one of these reads is in range, and the two results have the
same length. -/
theorem FindIndices_reads_Find {T : Type} (slice : List T) (predicate : T → Bool) :
    (FindIndices slice predicate).map (fun i => slice[i]?)
      = (Find slice predicate).map some ∧
    (FindIndices slice predicate).filterMap (fun i => slice[i]?) = Find slice predicate ∧
    (FindIndices slice predicate).length = (Find slice predicate).length := by
  have hread : (FindIndices slice predicate).map (fun i => slice[i]?)
      = (Find slice predicate).map some := by
    rw [FindIndices_eq, Find_eq_filter, ← enum_filter_snd slice predicate, List.map_map,
      List.map_map]
    apply List.map_congr_left
    intro e he
    exact List.mem_enum_iff_getElem?.mp (List.mem_filter.mp he).1
  refine ⟨hread, ?_, ?_⟩
  · have hid : (FindIndices slice predicate).filterMap (fun i => slice[i]?)
        = ((FindIndices slice predicate).map (fun i => slice[i]?)).filterMap id := by
      rw [List.filterMap_map]
      rfl
    rw [hid, hread, List.filterMap_map]
    simp
  · have := congrArg List.length hread
    simpa using this

end fp
